import Mathlib

/-!
Verification of the WAL (write-ahead log) codec and navigation code in
`src/storage/directory/wal.rs` and of the mapped-dictionary merge code in
`src/structure/mapped_dict.rs` of the terminus-store repository.

The Rust code is shallowly embedded: byte buffers become `List Nat` (each
element a byte value), 32-bit arithmetic is `Nat` with explicit `% 2 ^ 32`,
fallible operations return `Option`/`Except`-like sums, and the streaming
decoder's internal loop is driven by a fuel argument that is always given
`bytes.length + 1` fuel - every loop iteration of the Rust decoder that does
not break out of the loop consumes at least one byte of the input buffer, so
this fuel can never run out before the loop exits naturally.
-/

/-- One step of the reflected CRC-32 bit loop with the IEEE 802.3 polynomial
(0xEDB88320 is the reflected polynomial), as used by the Rust crate function
crc32 checksum_ieee. -/
def crc32Step (c : Nat) : Nat :=
  if c % 2 = 1 then (c / 2) ^^^ 0xEDB88320 else c / 2

/-- Fold one input byte into a running reflected CRC-32 state. -/
def crc32Byte (c b : Nat) : Nat :=
  (List.range 8).foldl (fun acc _ => crc32Step acc) (c ^^^ b)

/-- CRC-32 (IEEE) of a byte list: initial value 0xFFFFFFFF, final xor
0xFFFFFFFF, reflected bit order.  This is the checksum used by
WalRecord checksum and by the decoder state ReadRecordChecksum. -/
def crc32 (data : List Nat) : Nat :=
  (data.foldl crc32Byte 0xFFFFFFFF) ^^^ 0xFFFFFFFF

/-- Big-endian 4-byte encoding of a 32-bit value, as produced by
BigEndian write_u32 (values are first truncated to 32 bits, matching the
`as u32` casts in the Rust code). -/
def be32 (n : Nat) : List Nat :=
  let m := n % 2 ^ 32
  [m / 2 ^ 24 % 256, m / 2 ^ 16 % 256, m / 2 ^ 8 % 256, m % 256]

/-- Big-endian read of the first four bytes of a list, as done by
BigEndian read_u32. -/
def be32read (l : List Nat) : Nat :=
  l.getD 0 0 * 2 ^ 24 + l.getD 1 0 * 2 ^ 16 + l.getD 2 0 * 2 ^ 8 + l.getD 3 0

/-- Whether a byte is a UTF-8 continuation byte (0x80-0xBF). -/
def utf8Cont (b : Nat) : Bool :=
  0x80 ≤ b && b ≤ 0xBF

/-- Validity of a byte list as UTF-8, with the exact rules enforced by Rust
std str from_utf8: no overlong encodings, no surrogates, maximum code point
0x10FFFF. -/
def utf8Valid : List Nat → Bool
  | [] => true
  | b :: rest =>
    if b < 0x80 then utf8Valid rest
    else if b < 0xC2 then false
    else if b < 0xE0 then
      match rest with
      | c1 :: r => utf8Cont c1 && utf8Valid r
      | _ => false
    else if b < 0xF0 then
      match rest with
      | c1 :: c2 :: r =>
        (if b = 0xE0 then 0xA0 ≤ c1 && c1 ≤ 0xBF
         else if b = 0xED then 0x80 ≤ c1 && c1 ≤ 0x9F
         else utf8Cont c1) && utf8Cont c2 && utf8Valid r
      | _ => false
    else if b < 0xF5 then
      match rest with
      | c1 :: c2 :: c3 :: r =>
        (if b = 0xF0 then 0x90 ≤ c1 && c1 ≤ 0xBF
         else if b = 0xF4 then 0x80 ≤ c1 && c1 ≤ 0x8F
         else utf8Cont c1) && utf8Cont c2 && utf8Cont c3 && utf8Valid r
      | _ => false
    else false

/-- Error taxonomy of the WAL module (the WalError enum in wal.rs); the
`io` constructor stands for any underlying I/O error. -/
inductive WalError where
  | fileNotFound
  | unknownRecordType
  | incompleteRecord
  | labelNotUtf8
  | tooManyLabels
  | zeroLabels
  | duplicateLabel
  | invalidRecordLength
  | crcFailure
  | io
deriving DecidableEq, Repr

/-- Body bytes of a CheckpointRecord: the 4-byte big-endian identifier
(CheckpointRecord new in wal.rs). -/
def checkpointRecordBytes (index : Nat) : List Nat :=
  be32 index

/-- Body bytes of one LabelSetEntry: label length byte, label bytes, then the
five 32-bit big-endian layer words (LabelSetEntry new in wal.rs). -/
def labelSetEntryBytes (label : List Nat) (layer : Nat × Nat × Nat × Nat × Nat) : List Nat :=
  [label.length] ++ label ++ be32 layer.1 ++ be32 layer.2.1 ++ be32 layer.2.2.1
    ++ be32 layer.2.2.2.1 ++ be32 layer.2.2.2.2

/-- Body bytes of a LabelSetRecord: entry count byte, concatenated entries,
then the 4-byte big-endian identifier (LabelSetRecord new in wal.rs). -/
def labelSetRecordBytes (index : Nat) (entries : List (List Nat)) : List Nat :=
  [entries.length] ++ entries.flatten ++ be32 index

/-- A WalRecord at the byte level: the constructor tags the record type and
the payload is the record's body bytes (the `data` field of the Rust
structs). -/
inductive WalRecordB where
  | labelSet (data : List Nat)
  | checkpoint (data : List Nat)
deriving DecidableEq, Repr

/-- Type byte of a record (WalRecord type_num). -/
def WalRecordB.typeNum : WalRecordB → Nat
  | .labelSet _ => 0
  | .checkpoint _ => 1

/-- Body bytes of a record (WalRecord data). -/
def WalRecordB.body : WalRecordB → List Nat
  | .labelSet d => d
  | .checkpoint d => d

/-- Frame bytes assembled by AnnotatedWalRecord new: type byte, body, 4-byte
big-endian length of the body, then the 4-byte big-endian CRC-32 of the body
(WalRecord checksum applies the CRC to the body bytes only). -/
def annotatedFrame (r : WalRecordB) : List Nat :=
  [r.typeNum] ++ r.body ++ be32 r.body.length ++ be32 (crc32 r.body)

/-- Bytes appended to the output buffer by WalFileEncoder encode for one
AnnotatedWalRecord: the record's data bytes, verbatim. -/
def walFileEncoderEncode (recordData : List Nat) : List Nat :=
  recordData

/-- States of the streaming frame decoder (the WalFileDecoder enum).
The `List Nat` payloads are the bytes read so far for the current frame. -/
inductive WalFileDecoder where
  | invalid
  | start
  | labelSetReadNumEntries (readSoFar : List Nat)
  | labelSetReadEntry (readSoFar : List Nat) (numEntries : Nat)
  | labelSetReadIdentifier (readSoFar : List Nat)
  | checkpointReadIdentifier (readSoFar : List Nat)
  | readRecordLength (recordBytes : List Nat)
  | readRecordChecksum (recordBytes lengthBytes : List Nat)
deriving DecidableEq, Repr

/-- Outcome of one call to WalFileDecoder decode: a panic (the Invalid state
is entered), an error return, or Ok with either a completed record's data
bytes or nothing (more input needed / end of input). -/
inductive DecodeOutcome where
  | panic
  | err (e : WalError)
  | ok (res : Option (List Nat))
deriving DecidableEq, Repr

/-- One run of the internal loop of WalFileDecoder decode, driven by fuel.
Returns the outcome, the decoder state left behind in `self`, and the bytes
remaining in the input buffer.  The Rust method first swaps `self` with
`Invalid`; loop iterations that break restore the in-progress state via the
final swap, while the early error returns skip that swap and therefore leave
the decoder in the `invalid` state.  Every iteration of the Rust loop that
neither breaks nor returns consumes at least one input byte, so fuel
`bytes.length + 1` (supplied by `walDecode`) never runs out before the loop
exits. -/
def decodeFuel : Nat → WalFileDecoder → List Nat → DecodeOutcome × WalFileDecoder × List Nat
  | 0, state, bytes => (.ok none, state, bytes)
  | fuel + 1, state, bytes =>
    match state with
    | .invalid => (.panic, .invalid, bytes)
    | .start =>
      match bytes with
      | [] => (.ok none, .start, [])
      | b :: rest =>
        if b = 0 then decodeFuel fuel (.labelSetReadNumEntries [b]) rest
        else if b = 1 then decodeFuel fuel (.checkpointReadIdentifier [b]) rest
        else (.err .unknownRecordType, .invalid, b :: rest)
    | .labelSetReadNumEntries tp =>
      match bytes with
      | [] => (.ok none, .labelSetReadNumEntries tp, [])
      | b :: rest =>
        if b = 0 then (.err .zeroLabels, .invalid, b :: rest)
        else if b > 100 then (.err .tooManyLabels, .invalid, b :: rest)
        else decodeFuel fuel (.labelSetReadEntry (tp ++ [b]) b) rest
    | .labelSetReadEntry readSoFar numEntries =>
      -- LabelSetEntry try_split_from_bytes: empty or short input is an
      -- incomplete record (buffer untouched); otherwise split off
      -- label-length + 21 bytes and validate the label as UTF-8.
      match bytes with
      | [] => (.ok none, .labelSetReadEntry readSoFar numEntries, [])
      | b :: rest =>
        if (b :: rest).length < b + 21 then
          (.ok none, .labelSetReadEntry readSoFar numEntries, b :: rest)
        else
          if utf8Valid ((((b :: rest).take (b + 21)).drop 1).take b) then
            if numEntries - 1 = 0 then
              decodeFuel fuel (.labelSetReadIdentifier (readSoFar ++ (b :: rest).take (b + 21)))
                ((b :: rest).drop (b + 21))
            else
              decodeFuel fuel
                (.labelSetReadEntry (readSoFar ++ (b :: rest).take (b + 21)) (numEntries - 1))
                ((b :: rest).drop (b + 21))
          else (.err .labelNotUtf8, .invalid, (b :: rest).drop (b + 21))
    | .labelSetReadIdentifier readSoFar =>
      if bytes.length < 4 then (.ok none, .labelSetReadIdentifier readSoFar, bytes)
      else decodeFuel fuel (.readRecordLength (readSoFar ++ bytes.take 4)) (bytes.drop 4)
    | .checkpointReadIdentifier readSoFar =>
      if bytes.length < 4 then (.ok none, .checkpointReadIdentifier readSoFar, bytes)
      else decodeFuel fuel (.readRecordLength (readSoFar ++ bytes.take 4)) (bytes.drop 4)
    | .readRecordLength recordBytes =>
      if bytes.length < 4 then (.ok none, .readRecordLength recordBytes, bytes)
      else decodeFuel fuel (.readRecordChecksum recordBytes (bytes.take 4)) (bytes.drop 4)
    | .readRecordChecksum recordBytes lengthBytes =>
      if bytes.length < 4 then (.ok none, .readRecordChecksum recordBytes lengthBytes, bytes)
      else
        if be32read lengthBytes ≠ recordBytes.length then
          (.err .invalidRecordLength, .invalid, bytes.drop 4)
        else
          if be32read (bytes.take 4) ≠ crc32 recordBytes then
            (.err .crcFailure, .invalid, bytes.drop 4)
          else (.ok (some (recordBytes.drop 1)), .start, bytes.drop 4)

/-- One call to WalFileDecoder decode on decoder state `state` with input
buffer `bytes`. -/
def walDecode (state : WalFileDecoder) (bytes : List Nat) :
    DecodeOutcome × WalFileDecoder × List Nat :=
  decodeFuel (bytes.length + 1) state bytes

/-- Result of ReadableWalFile seek_previous.  `ok` carries the file position
the cursor ends at; `errKeep` is an error returned together with the file
handle (the `Some(wal)` channel), carrying the handle's cursor position at
the time of the error; `errLost` is an error returned with `None` (position
indeterminate). -/
inductive SeekPrevResult where
  | ok (newPos : Nat)
  | errKeep (e : WalError) (posAfter : Nat)
  | errLost (e : WalError)
deriving DecidableEq, Repr

/-- ReadableWalFile seek_previous over a file modelled as its byte list and
a cursor position.  Seeks are the standard kind that return the new absolute
offset; in particular the closure argument bound after the
seek-current-minus-8 call is that new offset, i.e. `pos - 8`, and it is this
shadowed value that the code compares against `len + 8` and uses in the
final absolute seek. -/
def seekPrevious (file : List Nat) (pos : Nat) : SeekPrevResult :=
  if pos = 0 then .ok 0
  else if pos < 8 then .errKeep .incompleteRecord pos
  else
    let p := pos - 8
    if file.length < p + 4 then .errLost .io
    else
      let len := be32read ((file.drop p).take 4)
      if p < len + 8 then .errKeep .incompleteRecord (p + 4)
      else .ok (p - len - 8)

/-- ReadableWalFile next_record over a file modelled as its byte list and a
cursor position: a fresh framed read with a decoder in the Start state is
driven over the bytes from the cursor onwards.  On a decoded frame the
cursor ends right after the consumed bytes; at end of input with no pending
partial frame the stream yields no record; leftover bytes that do not form
a frame surface as an I/O error ("bytes remaining on stream").  A decoder
started in the Start state never reaches the Invalid state within a single
frame, so the panic outcome is unreachable here and is mapped to the I/O
error as well. -/
def nextRecord (file : List Nat) (pos : Nat) :
    Except WalError (Option (List Nat) × Nat) :=
  let avail := file.drop pos
  match walDecode .start avail with
  | (.ok (some r), _, rest) => .ok (some r, file.length - rest.length)
  | (.ok none, _, rest) => if rest.isEmpty then .ok (none, file.length) else .error .io
  | (.err e, _, _) => .error e
  | (.panic, _, _) => .error .io

/-- Layer address abbreviation: the 5-tuple of 32-bit words. -/
abbrev LayerAddr := Nat × Nat × Nat × Nat × Nat

/-- Helper instance keeping later instance searches shallow. -/
instance decEqIdLayer : DecidableEq (Nat × LayerAddr) :=
  inferInstance

/-- Helper instance keeping later instance searches shallow. -/
instance decEqLabelBinding : DecidableEq (String × (Nat × LayerAddr)) :=
  instDecidableEqProd

/-- A WAL record at the logical level: a label-set record with its identifier
and its label-to-layer entries in record order, or a checkpoint record with
its identifier. -/
inductive WalRec where
  | labelSet (id : Nat) (entries : List (String × LayerAddr))
  | checkpoint (id : Nat)
deriving DecidableEq, Repr

/-- Reverse traversal core of ReadableWalFile walk_backwards, over the
record sequence of the file given already reversed (latest record first).
The visitor is stateful (the Rust visitors capture RefCell accumulators):
it receives the current accumulator and `some record`, or `none` once the
scan has passed the first record of the file, and returns the new
accumulator and `some result` to stop (yielding that result) or `none` to
continue. -/
def walkBackAux {σ τ : Type} (f : σ → Option WalRec → σ × Option τ) :
    σ → List WalRec → σ × Option τ
  | s, [] => f s none
  | s, r :: rest =>
    match f s (some r) with
    | (s', some t) => (s', some t)
    | (s', none) => walkBackAux f s' rest

/-- ReadableWalFile walk_backwards over the records of a file in file
order: visits the records latest-first and finally `none`. -/
def walkBackwards {σ τ : Type} (recs : List WalRec)
    (f : σ → Option WalRec → σ × Option τ) (init : σ) : σ × Option τ :=
  walkBackAux f init recs.reverse

/-- Visitor of ReadableWalFile get_last_checkpoint: the identifier of the
first checkpoint met while walking backwards, or 0 at the start of file. -/
def lastCheckpointVisitor : Unit → Option WalRec → Unit × Option Nat
  | _, some (.checkpoint id) => ((), some id)
  | _, some _ => ((), none)
  | _, none => ((), some 0)

/-- ReadableWalFile get_last_checkpoint: walk backwards with
`lastCheckpointVisitor` and unwrap (the visitor always yields a value by the
time the walk ends, so the unwrap is modelled by `Option.getD 0`). -/
def getLastCheckpoint (recs : List WalRec) : Nat :=
  ((walkBackwards recs lastCheckpointVisitor ()).2).getD 0

/-- Visitor of ReadableWalFile get_last_id: the identifier of the first
label-set record met while walking backwards; no value at start of file. -/
def lastIdVisitor : Unit → Option WalRec → Unit × Option Nat
  | _, some (.labelSet id _) => ((), some id)
  | _, some _ => ((), none)
  | _, none => ((), none)

/-- ReadableWalFile get_last_id: reverse-scan for the last label-set record's
identifier, falling back to get_last_checkpoint when there is none. -/
def getLastId (recs : List WalRec) : Nat :=
  match (walkBackwards recs lastIdVisitor ()).2 with
  | none => getLastCheckpoint recs
  | some id => id

/-- Lookup in the discovered-labels accumulator (a HashMap in the Rust code,
modelled as an association list with unique keys). -/
def lookupLabel (m : List (String × (Nat × LayerAddr))) (lab : String) :
    Option (Nat × LayerAddr) :=
  (m.find? (fun p => p.1 = lab)).map Prod.snd

/-- Key-membership test in the discovered-labels accumulator
(HashMap contains_key). -/
def containsLabel (m : List (String × (Nat × LayerAddr))) (lab : String) : Bool :=
  m.any (fun p => p.1 = lab)

/-- Accumulator state of the get_all_labels_since_last_checkpoint visitor:
the checkpoint cell and the discovered map. -/
structure AllLabelsState where
  cp : Option Nat
  discovered : List (String × (Nat × LayerAddr))
deriving DecidableEq, Repr

/-- Visitor of get_all_labels_since_last_checkpoint: remember the first
checkpoint identifier seen; stop at the label-set record whose identifier
equals it; otherwise record each entry's label (first occurrence during the
backward walk wins) with the record identifier and the entry's layer. -/
def allLabelsVisitor : AllLabelsState → Option WalRec → AllLabelsState × Option Nat
  | s, some (.checkpoint cid) =>
    ({ s with cp := match s.cp with | none => some cid | some c => some c }, none)
  | s, some (.labelSet id entries) =>
    if s.cp = some id then (s, some id)
    else
      ({ s with discovered :=
           entries.foldl (fun d e =>
             if containsLabel d e.1 then d else d ++ [(e.1, (id, e.2))]) s.discovered },
       none)
  | s, none => (s, some (s.cp.getD 0))

/-- ReadableWalFile get_all_labels_since_last_checkpoint: the discovered
label map and the checkpoint identifier (0 when the walk yields none). -/
def getAllLabelsSinceLastCheckpoint (recs : List WalRec) :
    List (String × (Nat × LayerAddr)) × Nat :=
  let (s, t) := walkBackwards recs allLabelsVisitor ⟨none, []⟩
  (s.discovered, t.getD 0)

/-- ExclusiveWalFile append_labelset over the logical record sequence of the
file: read get_last_id, refuse (returning false and leaving the file
untouched) unless the new identifier is exactly one more, and otherwise
append the framed label-set record and report true. -/
def appendLabelset (recs : List WalRec) (id : Nat)
    (labels : List (String × LayerAddr)) : List WalRec × Bool :=
  if id = getLastId recs + 1 then (recs ++ [.labelSet id labels], true)
  else (recs, false)

/-- First index at which a value occurs in a list, if any. -/
def idxOf? {α : Type} [DecidableEq α] (a : α) : List α → Option Nat
  | [] => none
  | b :: rest => if b = a then some 0 else (idxOf? a rest).map (· + 1)

/-- A MappedPfcDict, modelled by the contents of its two parts.  Modelled
from the spec: the PfcDict (external to this repository) is an ordered
sequence of unique strings supporting get and id, modelled as the list of
its strings in local order; the WaveletTree (external to this repository)
built over the merger's index vector is modelled as that vector itself, with
lookup_one returning the position of a value in the vector and decode_one
returning the value at a position. -/
structure MappedPfcDict where
  dict : List String
  wtree : List Nat
deriving DecidableEq, Repr

/-- MappedPfcDict len: the length of the inner dictionary. -/
def MappedPfcDict.len (d : MappedPfcDict) : Nat :=
  d.dict.length

/-- MappedPfcDict get: map the external identifier through
WaveletTree lookup_one, then read the inner dictionary at the resulting
local identifier.  The Rust code panics on an out-of-range index and unwraps
the wavelet lookup; both falls are modelled by `Option`. -/
def MappedPfcDict.get (d : MappedPfcDict) (ix : Nat) : Option String :=
  (idxOf? ix d.wtree).bind (fun mappedId => d.dict.get? mappedId)

/-- MappedPfcDict id: look the string up in the inner dictionary and map the
local identifier through WaveletTree decode_one (reading the stored vector
at that position; 0 stands in for the unreachable out-of-range read). -/
def MappedPfcDict.id (d : MappedPfcDict) (s : String) : Option Nat :=
  (idxOf? s d.dict).map (fun mappedId => d.wtree.getD mappedId 0)

/-- Selection step of the k-way merge. Modelled from the spec: the
sorted_stream combinator (external to this repository) repeatedly picks the
input stream whose head is minimal.  The selector passed by
merge_dictionary_stack takes, among the non-exhausted streams, the one whose
head pair has the minimal string component, the first such stream on ties.
`i` is the index of the first stream of `ss` and `acc` the best
(index, key) found so far. -/
def pickMinAux {α : Type} [LinearOrder α] (i : Nat) (acc : Option (Nat × α)) :
    List (List (Nat × α)) → Option (Nat × α)
  | [] => acc
  | s :: rest =>
    match s.head? with
    | none => pickMinAux (i + 1) acc rest
    | some (_, k) =>
      match acc with
      | none => pickMinAux (i + 1) (some (i, k)) rest
      | some (j, bk) =>
        if k < bk then pickMinAux (i + 1) (some (i, k)) rest
        else pickMinAux (i + 1) (some (j, bk)) rest

/-- Index of the stream selected by the k-way merge selector, if any stream
is non-exhausted. -/
def pickMin {α : Type} [LinearOrder α] (ss : List (List (Nat × α))) : Option (Nat × α) :=
  pickMinAux 0 none ss

/-- Total number of pending elements over all streams. -/
def totalLen {α : Type} (ss : List (List α)) : Nat :=
  (ss.map List.length).sum

/-- Fuel-driven k-way sorted merge: repeatedly emit the head of the selected
stream and advance that stream.  Each emission removes one element, so fuel
`totalLen ss` (supplied by `kmerge`) always suffices. -/
def kmergeFuel {α : Type} [LinearOrder α] :
    Nat → List (List (Nat × α)) → List (Nat × α)
  | 0, _ => []
  | fuel + 1, ss =>
    match pickMin ss with
    | none => []
    | some (i, _) =>
      match ss.getD i [] with
      | [] => []
      | p :: tl => p :: kmergeFuel fuel (ss.set i tl)

/-- The k-way sorted merge of the streams (sorted_stream with the selector
of merge_dictionary_stack). -/
def kmerge {α : Type} [LinearOrder α] (ss : List (List (Nat × α))) : List (Nat × α) :=
  kmergeFuel (totalLen ss) ss

/-- Exclusive prefix sums of the input dictionary counts, as produced by the
scan over dict_file_get_count results in merge_dictionary_stack; `n` is the
running tally. -/
def offsetsFrom {α : Type} (n : Nat) : List (List α) → List Nat
  | [] => []
  | l :: rest => n :: offsetsFrom (n + l.length) rest

/-- Pair each element of a list with consecutive identifiers starting at
`n`: the zip of the unfolded count stream with the dictionary stream in
merge_dictionary_stack's no-remap branch. -/
def enumFrom {α : Type} (n : Nat) : List α → List (Nat × α)
  | [] => []
  | a :: rest => (n, a) :: enumFrom (n + 1) rest

/-- The per-input (external identifier, string) streams built by
merge_dictionary_stack for a stack with no remaps: each input dictionary
(modelled from the spec as its sorted string list, the stream that
dict_reader_to_stream yields) is zipped with the counter stream starting at
its exclusive-prefix-sum offset. -/
def streamsOf (inputs : List (List String)) : List (List (Nat × String)) :=
  List.zipWith enumFrom (offsetsFrom 0 inputs) inputs

/-- merge_dictionary_stack for a stack with no remaps, returning the data
the two built file sets hold: the merged dictionary's strings in insertion
(sorted) order, fed to the PfcDictFileBuilder, and the `indexes` vector of
external identifiers in the same order, from which the wavelet tree is
built. -/
def mergeDictionaryStack (inputs : List (List String)) : List String × List Nat :=
  let merged := kmerge (streamsOf inputs)
  (merged.map Prod.snd, merged.map Prod.fst)

/-- The MappedPfcDict obtained from the two file sets written by
merge_dictionary_stack (MappedPfcDict from_parts over the merged dictionary
and the wavelet tree of the index vector). -/
def mergedMappedDict (inputs : List (List String)) : MappedPfcDict :=
  { dict := (mergeDictionaryStack inputs).1, wtree := (mergeDictionaryStack inputs).2 }

/-- The exclusive prefix sum of the input counts before input `i` (the
offset defining input `i`'s external-identifier range). -/
def offsetOf (inputs : List (List String)) (i : Nat) : Nat :=
  ((inputs.take i).map List.length).sum

set_option maxRecDepth 8000

/-- C1: the claim states that re-encoding any decoded frame reproduces the
frame bytes.  This fails on the code: the encoder stores the body length and
the CRC of the body alone, while the decoder checks the stored length
against the type byte plus body and the stored CRC against the CRC of the
type byte plus body, so the decoder rejects every encoder-produced frame
(shown here for the frame of Checkpoint(7), rejected with
InvalidRecordLength); moreover, for a frame the decoder does accept (same
record with a type-inclusive length field and a type-covering CRC), the
decoded AnnotatedWalRecord holds only the body bytes, so re-encoding it via
WalFileEncoder yields the bare body, not the frame. -/
theorem c1_encode_decode_roundtrip_fails :
    walDecode .start (annotatedFrame (.checkpoint (checkpointRecordBytes 7))) =
      (.err .invalidRecordLength, .invalid, []) ∧
    walDecode .start ([1] ++ checkpointRecordBytes 7 ++ be32 5 ++
        be32 (crc32 (1 :: checkpointRecordBytes 7))) =
      (.ok (some (checkpointRecordBytes 7)), .start, []) ∧
    walFileEncoderEncode (checkpointRecordBytes 7) ≠
      [1] ++ checkpointRecordBytes 7 ++ be32 5 ++
        be32 (crc32 (1 :: checkpointRecordBytes 7)) := by
  refine ⟨by decide, by decide, by decide⟩

/-- C2: the claim states the frame carries length = body length excluding
the type byte and CRC over the type byte followed by the body, and that the
decoder accepts exactly when the stored fields match those two values.
On the code the two halves disagree: for Checkpoint(9), the encoder's
stored CRC (over the body alone) differs from the CRC over type byte plus
body required by the claim, and the decoder rejects the encoder's frame -
whose stored length is the body length, exactly what the claim prescribes -
with InvalidRecordLength, while accepting the frame whose stored length is
the body length plus one (type byte included) and whose stored CRC covers
the type byte plus body. -/
theorem c2_envelope_fields_mismatch :
    crc32 (checkpointRecordBytes 9) ≠ crc32 (1 :: checkpointRecordBytes 9) ∧
    annotatedFrame (.checkpoint (checkpointRecordBytes 9)) =
      [1] ++ checkpointRecordBytes 9 ++ be32 4 ++ be32 (crc32 (checkpointRecordBytes 9)) ∧
    walDecode .start (annotatedFrame (.checkpoint (checkpointRecordBytes 9))) =
      (.err .invalidRecordLength, .invalid, []) ∧
    walDecode .start ([1] ++ checkpointRecordBytes 9 ++ be32 5 ++
        be32 (crc32 (1 :: checkpointRecordBytes 9))) =
      (.ok (some (checkpointRecordBytes 9)), .start, []) := by
  refine ⟨by decide, by decide, by decide, by decide⟩

/-- C3: the claim states that from a frame boundary, seek_previous followed
by next_record returns to the same position, because seeking back
length + 8 from the end of a frame lands on its type byte.  On the code
this fails for encoder-produced frames: for the 13-byte frame of
Checkpoint(7) whose length field holds 4, seek_previous from position 13
returns IncompleteRecord instead of reaching a frame boundary, and seeking
back length + 8 from the end of the frame would land at offset 1 - one past
the type byte - because the encoder's length field excludes the type
byte. -/
theorem c3_seek_previous_misses_frame_start :
    seekPrevious (annotatedFrame (.checkpoint (checkpointRecordBytes 7))) 13 =
      .errKeep .incompleteRecord 9 ∧
    (annotatedFrame (.checkpoint (checkpointRecordBytes 7))).length -
      (be32read (((annotatedFrame (.checkpoint (checkpointRecordBytes 7))).drop
        ((annotatedFrame (.checkpoint (checkpointRecordBytes 7))).length - 8)).take 4) + 8)
      = 1 := by
  refine ⟨by decide, by decide⟩

/-- C8: the claim restates the backward-seek algorithm with `pos` the
original cursor offset throughout.  The code rebinds `pos` to the offset
returned by the seek back 8 bytes (that is, pos - 8) before comparing it
with len + 8 and before computing the final target, so for the 13-byte
decoder-valid frame of Checkpoint(7) (length field 5), seek_previous from
position 13 yields IncompleteRecord where the claim requires success at
13 - 5 - 8 = 0; and from position 21 of the same frame preceded by 8
padding bytes it succeeds at position 0 instead of the claimed
21 - 5 - 8 = 8.  The pos = 0 and 0 < pos < 8 cases do behave as claimed. -/
theorem c8_seek_previous_uses_shifted_position :
    seekPrevious ([1] ++ checkpointRecordBytes 7 ++ be32 5 ++
        be32 (crc32 (1 :: checkpointRecordBytes 7))) 0 = .ok 0 ∧
    seekPrevious ([1] ++ checkpointRecordBytes 7 ++ be32 5 ++
        be32 (crc32 (1 :: checkpointRecordBytes 7))) 5 = .errKeep .incompleteRecord 5 ∧
    seekPrevious ([1] ++ checkpointRecordBytes 7 ++ be32 5 ++
        be32 (crc32 (1 :: checkpointRecordBytes 7))) 13 = .errKeep .incompleteRecord 9 ∧
    seekPrevious ([1] ++ checkpointRecordBytes 7 ++ be32 5 ++
        be32 (crc32 (1 :: checkpointRecordBytes 7))) 13 ≠ .ok (13 - 5 - 8) ∧
    seekPrevious ([0, 0, 0, 0, 0, 0, 0, 0] ++ [1] ++ checkpointRecordBytes 7 ++ be32 5 ++
        be32 (crc32 (1 :: checkpointRecordBytes 7))) 21 = .ok 0 ∧
    seekPrevious ([0, 0, 0, 0, 0, 0, 0, 0] ++ [1] ++ checkpointRecordBytes 7 ++ be32 5 ++
        be32 (crc32 (1 :: checkpointRecordBytes 7))) 21 ≠ .ok (21 - 5 - 8) := by
  refine ⟨by decide, by decide, by decide, by decide, by decide, by decide⟩

/-- Any error return of the decoder loop leaves the decoder in the Invalid
state: the early returns bypass the final swap that would restore the
in-progress state. -/
theorem decodeFuel_err_invalid : ∀ (fuel : Nat) (st : WalFileDecoder) (bytes : List Nat)
    (e : WalError), (decodeFuel fuel st bytes).1 = .err e →
    (decodeFuel fuel st bytes).2.1 = .invalid := by
  intro fuel st bytes
  induction fuel, st, bytes using decodeFuel.induct <;> intro e h <;> simp_all [decodeFuel] <;>
    (try (split at h <;> simp_all)) <;> (try (split <;> simp_all)) <;> (try omega)

/-- C10: whenever a decode call returns an error, the decoder value is left
in the Invalid state (the early error returns bypass the swap that restores
the in-progress state), and a decode call on a decoder in the Invalid state
panics instead of returning Ok or Err - an errored decoder is unusable. -/
theorem c10_decode_error_leaves_decoder_invalid :
    (∀ (st : WalFileDecoder) (bytes : List Nat) (e : WalError),
      (walDecode st bytes).1 = .err e → (walDecode st bytes).2.1 = .invalid) ∧
    (∀ bytes : List Nat, walDecode .invalid bytes = (.panic, .invalid, bytes)) :=
  ⟨fun st bytes e h => decodeFuel_err_invalid (bytes.length + 1) st bytes e h,
   fun _ => rfl⟩

/-- Witness for C10 at a concrete erroring input: decoding the single byte 2
from the Start state fails with UnknownRecordType and, by the theorem, the
decoder is left Invalid. -/
theorem c10_decode_error_witness :
    (walDecode .start [2]).1 = .err .unknownRecordType ∧
    (walDecode .start [2]).2.1 = .invalid :=
  ⟨by decide, c10_decode_error_leaves_decoder_invalid.1 .start [2] .unknownRecordType (by decide)⟩

/-- The walk_backwards run with the get_last_id visitor finds the first
label-set identifier in the (already reversed) record list. -/
theorem walkBack_lastId (rev : List WalRec) :
    (walkBackAux lastIdVisitor () rev).2 =
      rev.findSome? (fun r => match r with | WalRec.labelSet id _ => some id | _ => none) := by
  induction rev with
  | nil => rfl
  | cons r rest ih => cases r <;> simp [walkBackAux, lastIdVisitor, List.findSome?_cons, ih]

/-- C9: on an empty WAL file, next_record yields no record (returning the
handle), get_last_checkpoint yields 0 and get_last_id yields 0; and in
general get_last_id returns the identifier of the last label-set record in
file order (the first found scanning the reversed file), falling back to
get_last_checkpoint when the file holds no label-set record. -/
theorem c9_empty_file_and_last_id :
    nextRecord [] 0 = .ok (none, 0) ∧ getLastCheckpoint [] = 0 ∧ getLastId [] = 0 ∧
    ∀ recs : List WalRec,
      getLastId recs =
        (recs.reverse.findSome? (fun r =>
          match r with | WalRec.labelSet id _ => some id | _ => none)).getD
          (getLastCheckpoint recs) := by
  refine ⟨rfl, rfl, rfl, ?_⟩
  intro recs
  unfold getLastId walkBackwards
  rw [walkBack_lastId]
  cases h : List.findSome? (fun r =>
    match r with | WalRec.labelSet id _ => some id | _ => none) recs.reverse <;> simp [h]

/-- C5: append_labelset returns false exactly when the identifier is not
get_last_id plus one, and in that case performs no write, leaving the file
unchanged; when the identifier is get_last_id plus one it appends the
label-set record and returns true. -/
theorem c5_append_labelset_guard :
    ∀ (recs : List WalRec) (id : Nat) (labels : List (String × LayerAddr)),
      ((appendLabelset recs id labels).2 = false ↔ id ≠ getLastId recs + 1) ∧
      ((appendLabelset recs id labels).2 = false → (appendLabelset recs id labels).1 = recs) ∧
      (id = getLastId recs + 1 →
        appendLabelset recs id labels = (recs ++ [.labelSet id labels], true)) := by
  intro recs id labels
  unfold appendLabelset
  by_cases h : id = getLastId recs + 1 <;> simp [h]

/-- Witness for C5 at a concrete input: on the empty file, get_last_id is 0,
so appending LabelSet(1) succeeds and appends exactly that record. -/
theorem c5_append_labelset_witness :
    (1 = getLastId [] + 1) ∧
    appendLabelset ([] : List WalRec) 1 [] = ([WalRec.labelSet 1 []], true) :=
  ⟨by decide, (c5_append_labelset_guard [] 1 []).2.2 (by decide)⟩

/-- Reference reverse scan following the amended C4 claim's words: walk the
file from its last record towards the first, remember the first checkpoint
identifier met, collect each label's first (latest-in-file-order) binding
from the label-set records passed, and stop at a label-set record whose
identifier equals the remembered checkpoint identifier; return the
collected bindings and the checkpoint identifier (0 when none was met). -/
def refScanAux : Option Nat → List (String × (Nat × LayerAddr)) → List WalRec →
    List (String × (Nat × LayerAddr)) × Nat
  | cp, acc, [] => (acc, cp.getD 0)
  | cp, acc, .checkpoint c :: rest => refScanAux (some (cp.getD c)) acc rest
  | cp, acc, .labelSet id es :: rest =>
    if cp = some id then (acc, id)
    else refScanAux cp
      (es.foldl (fun d e => if containsLabel d e.1 then d else d ++ [(e.1, (id, e.2))]) acc) rest

/-- Reference reverse scan of a file (amended C4 claim), started on the
reversed record list with no checkpoint and no bindings. -/
def refScan (recs : List WalRec) : List (String × (Nat × LayerAddr)) × Nat :=
  refScanAux none [] recs.reverse

/-- The walk_backwards run with the get_all_labels visitor computes the
reference reverse scan, for any starting checkpoint cell and accumulator. -/
theorem walk_eq_refScan : ∀ (rev : List WalRec) (cp : Option Nat)
    (acc : List (String × (Nat × LayerAddr))),
    ((walkBackAux allLabelsVisitor ⟨cp, acc⟩ rev).1.discovered,
      ((walkBackAux allLabelsVisitor ⟨cp, acc⟩ rev).2).getD 0) = refScanAux cp acc rev := by
  intro rev
  induction rev with
  | nil => intro cp acc; rfl
  | cons r rest ih =>
    intro cp acc
    cases r with
    | checkpoint c => cases cp <;> simp [walkBackAux, allLabelsVisitor, refScanAux, ih]
    | labelSet id es =>
      by_cases h : cp = some id <;> simp [walkBackAux, allLabelsVisitor, refScanAux, h, ih]

/-- C4 (amended): get_all_labels_since_last_checkpoint collects, first wins
during the backward walk (latest wins chronologically), every label of the
label-set records encountered before the walk reaches a label-set record
whose identifier equals the latest checkpoint identifier (the walk stops
there; earlier records are not consulted), and returns them with the latest
checkpoint identifier, 0 when there is none.  On the claim's example file
LabelSet(1,x), LabelSet(2,y), Checkpoint(2), LabelSet(3,x z) this yields
x and z bound at identifier 3 and checkpoint identifier 2, with y
excluded. -/
theorem c4_all_labels_since_checkpoint_amended :
    (∀ recs : List WalRec, getAllLabelsSinceLastCheckpoint recs = refScan recs) ∧
    getAllLabelsSinceLastCheckpoint
        [.labelSet 1 [("x", (1,0,0,0,0))], .labelSet 2 [("y", (2,0,0,0,0))],
         .checkpoint 2, .labelSet 3 [("x", (3,0,0,0,0)), ("z", (4,0,0,0,0))]] =
      ([("x", (3, (3,0,0,0,0))), ("z", (3, (4,0,0,0,0)))], 2) := by
  constructor
  · intro recs
    unfold getAllLabelsSinceLastCheckpoint walkBackwards refScan
    exact walk_eq_refScan recs.reverse none []
  · decide

/-- C4 counterexample to the claim as stated: in the file LabelSet(1,x),
Checkpoint(2) - reachable through the append API, whose checkpoint guard
only compares against the previous checkpoint - the only binding of label x
has identifier 1, at or before the latest checkpoint identifier 2, so the
claim requires x to be excluded; the code returns x bound at identifier 1,
because the backward walk only stops at a label-set record whose identifier
equals the checkpoint identifier and no such record exists here. -/
theorem c4_all_labels_since_checkpoint_counterexample :
    lookupLabel (getAllLabelsSinceLastCheckpoint
        [.labelSet 1 [("x", (1,0,0,0,0))], .checkpoint 2]).1 "x" = some (1, (1,0,0,0,0)) ∧
    (getAllLabelsSinceLastCheckpoint
        [.labelSet 1 [("x", (1,0,0,0,0))], .checkpoint 2]).2 = 2 ∧ (1 : Nat) ≤ 2 := by
  exact ⟨by decide, by decide, by decide⟩

/-- Index lookup is sound: the found index holds the value. -/
theorem idxOf?_get {α : Type} [DecidableEq α] {a : α} :
    ∀ {l : List α} {t : Nat}, idxOf? a l = some t → l[t]? = some a := by
  intro l
  induction l with
  | nil => intro t h; simp [idxOf?] at h
  | cons b rest ih =>
    intro t h
    by_cases hb : b = a
    · simp [idxOf?, hb] at h; subst h; simp [hb]
    · simp [idxOf?, hb] at h
      obtain ⟨t', ht', rfl⟩ := h
      simpa using ih ht'

/-- In a list without duplicates, index lookup finds the position any
occurrence sits at. -/
theorem idxOf?_of_getElem? {α : Type} [DecidableEq α] {a : α} :
    ∀ {l : List α} {t : Nat}, l.Nodup → l[t]? = some a → idxOf? a l = some t := by
  intro l
  induction l with
  | nil => intro t _ h; simp at h
  | cons b rest ih =>
    intro t hnd h
    cases t with
    | zero => simp at h; simp [idxOf?, h]
    | succ t' =>
      simp at h
      have hb : b ≠ a := by
        intro hba
        subst hba
        exact (List.nodup_cons.mp hnd).1 (List.getElem?_mem h)
      simp [idxOf?, hb, ih (List.nodup_cons.mp hnd).2 h]

/-- C7: for a MappedPfcDict over a duplicate-free dictionary and a wavelet
tree of the same length encoding an invertible permutation, get maps the
index through lookup_one into the dictionary, get composed with id is the
identity on indices below the length, and id composed with get is the
identity on the dictionary's strings. -/
theorem c7_mapped_dict_roundtrip (d : MappedPfcDict) (hnd : d.dict.Nodup)
    (hperm : d.wtree.Perm (List.range d.dict.length)) :
    (∀ ix : Nat, d.get ix = (idxOf? ix d.wtree).bind (fun mappedId => d.dict.get? mappedId)) ∧
    (∀ ix : Nat, ix < d.len → ∃ s, d.get ix = some s ∧ d.id s = some ix) ∧
    (∀ s : String, s ∈ d.dict → ∃ e, d.id s = some e ∧ d.get e = some s) := by
  have hlen : d.wtree.length = d.dict.length := by
    simpa using hperm.length_eq
  have wnd : d.wtree.Nodup := hperm.nodup_iff.mpr (List.nodup_range _)
  have hmem : ∀ v, v ∈ d.wtree ↔ v < d.dict.length := by
    intro v
    rw [hperm.mem_iff, List.mem_range]
  refine ⟨fun ix => rfl, ?_, ?_⟩
  · intro ix hix
    obtain ⟨t, ht⟩ := List.getElem?_of_mem ((hmem ix).mpr hix)
    have htw : t < d.wtree.length := (List.getElem?_eq_some.mp ht).1
    have htd : t < d.dict.length := hlen ▸ htw
    have hidx : idxOf? ix d.wtree = some t := idxOf?_of_getElem? wnd ht
    refine ⟨d.dict[t], ?_, ?_⟩
    · unfold MappedPfcDict.get
      rw [hidx]
      simp [List.get?_eq_getElem?, List.getElem?_eq_getElem htd]
    · unfold MappedPfcDict.id
      have hd : d.dict[t]? = some d.dict[t] := List.getElem?_eq_getElem htd
      rw [idxOf?_of_getElem? hnd hd]
      simp [List.getD_eq_getElem?_getD, ht]
  · intro s hs
    obtain ⟨t, ht⟩ := List.getElem?_of_mem hs
    have htd : t < d.dict.length := (List.getElem?_eq_some.mp ht).1
    have htw : t < d.wtree.length := hlen.symm ▸ htd
    have hw : d.wtree[t]? = some d.wtree[t] := List.getElem?_eq_getElem htw
    refine ⟨d.wtree[t], ?_, ?_⟩
    · unfold MappedPfcDict.id
      rw [idxOf?_of_getElem? hnd ht]
      simp [List.getD_eq_getElem?_getD, hw]
    · unfold MappedPfcDict.get
      rw [idxOf?_of_getElem? wnd hw]
      simp [List.get?_eq_getElem?, ht]

/-- Witness for C7 at a concrete instance: the dictionary a, b with wavelet
vector 1, 0 satisfies the hypotheses, and the round-trip conclusions hold
for it by the theorem. -/
theorem c7_mapped_dict_roundtrip_witness :
    ((["a", "b"] : List String).Nodup ∧
      ([1, 0] : List Nat).Perm (List.range (["a", "b"] : List String).length)) ∧
    ((∀ ix : Nat, (⟨["a", "b"], [1, 0]⟩ : MappedPfcDict).get ix =
        (idxOf? ix (⟨["a", "b"], [1, 0]⟩ : MappedPfcDict).wtree).bind
          (fun mappedId => (⟨["a", "b"], [1, 0]⟩ : MappedPfcDict).dict.get? mappedId)) ∧
      (∀ ix : Nat, ix < (⟨["a", "b"], [1, 0]⟩ : MappedPfcDict).len →
        ∃ s, (⟨["a", "b"], [1, 0]⟩ : MappedPfcDict).get ix = some s ∧
          (⟨["a", "b"], [1, 0]⟩ : MappedPfcDict).id s = some ix) ∧
      (∀ s : String, s ∈ (⟨["a", "b"], [1, 0]⟩ : MappedPfcDict).dict →
        ∃ e, (⟨["a", "b"], [1, 0]⟩ : MappedPfcDict).id s = some e ∧
          (⟨["a", "b"], [1, 0]⟩ : MappedPfcDict).get e = some s)) :=
  ⟨⟨by decide, by decide⟩,
   c7_mapped_dict_roundtrip ⟨["a", "b"], [1, 0]⟩ (by decide) (by decide)⟩

/-- When the merge selector finds no stream, all streams are exhausted (and
an accumulated candidate would have been returned). -/
theorem pickMinAux_none {α : Type} [LinearOrder α] :
    ∀ (ss : List (List (Nat × α))) (i : Nat) (acc : Option (Nat × α)),
    pickMinAux i acc ss = none → acc = none ∧ ∀ s ∈ ss, s = [] := by
  intro ss
  induction ss with
  | nil => intro i acc h; exact ⟨h, by simp⟩
  | cons s rest ih =>
    intro i acc h
    simp only [pickMinAux] at h
    cases hs : s.head? with
    | none =>
      rw [hs] at h
      obtain ⟨ha, hr⟩ := ih _ _ h
      have hsnil : s = [] := List.head?_eq_none_iff.mp hs
      refine ⟨ha, ?_⟩
      intro x hx
      rcases List.mem_cons.mp hx with hx | hx
      · rw [hx]; exact hsnil
      · exact hr x hx
    | some p =>
      rw [hs] at h
      obtain ⟨n0, k0⟩ := p
      cases acc with
      | none => exact absurd (ih _ _ h).1 (by simp)
      | some a =>
        obtain ⟨j0, bk⟩ := a
        dsimp at h
        split at h <;> exact absurd (ih _ _ h).1 (by simp)

/-- The merge selector's result is either the accumulated candidate or the
head key of one of the streams, at the reported index. -/
theorem pickMinAux_sound {α : Type} [LinearOrder α] :
    ∀ (ss : List (List (Nat × α))) (i : Nat) (acc : Option (Nat × α)) (j : Nat) (k : α),
    pickMinAux i acc ss = some (j, k) →
    acc = some (j, k) ∨ ∃ t l n, ss[t]? = some l ∧ l.head? = some (n, k) ∧ j = i + t := by
  intro ss
  induction ss with
  | nil => intro i acc j k h; exact Or.inl h
  | cons s rest ih =>
    intro i acc j k h
    simp only [pickMinAux] at h
    cases hs : s.head? with
    | none =>
      rw [hs] at h
      rcases ih _ _ _ _ h with ha | ⟨t, l, n, hget, hhead, hj⟩
      · exact Or.inl ha
      · exact Or.inr ⟨t + 1, l, n, by simpa using hget, hhead, by omega⟩
    | some p =>
      rw [hs] at h
      obtain ⟨n0, k0⟩ := p
      have fromAcc0 : pickMinAux (i + 1) (some (i, k0)) rest = some (j, k) →
          acc = some (j, k) ∨
          ∃ t l n, (s :: rest)[t]? = some l ∧ l.head? = some (n, k) ∧ j = i + t := by
        intro h'
        rcases ih _ _ _ _ h' with ha | ⟨t, l, n, hget, hhead, hj⟩
        · refine Or.inr ⟨0, s, n0, by simp, ?_, ?_⟩
          · rw [hs]; injection ha with ha'; rw [Prod.mk.injEq] at ha'; rw [ha'.2]
          · injection ha with ha'; rw [Prod.mk.injEq] at ha'; omega
        · exact Or.inr ⟨t + 1, l, n, by simpa using hget, hhead, by omega⟩
      cases acc with
      | none => exact fromAcc0 h
      | some a =>
        obtain ⟨j0, bk⟩ := a
        dsimp at h
        split at h
        · exact fromAcc0 h
        · rcases ih _ _ _ _ h with ha | ⟨t, l, n, hget, hhead, hj⟩
          · exact Or.inl ha
          · exact Or.inr ⟨t + 1, l, n, by simpa using hget, hhead, by omega⟩

/-- The merge selector's key is minimal among the accumulated candidate and
every stream head. -/
theorem pickMinAux_min {α : Type} [LinearOrder α] :
    ∀ (ss : List (List (Nat × α))) (i : Nat) (acc : Option (Nat × α)) (j : Nat) (k : α),
    pickMinAux i acc ss = some (j, k) →
    (∀ (j' : Nat) (k' : α), acc = some (j', k') → k ≤ k') ∧
    (∀ (t : Nat) (l : List (Nat × α)) (n : Nat) (p : α),
      ss[t]? = some l → l.head? = some (n, p) → k ≤ p) := by
  intro ss
  induction ss with
  | nil =>
    intro i acc j k h
    refine ⟨?_, ?_⟩
    · intro j' k' ha
      rw [ha] at h
      injection h with h'
      rw [Prod.mk.injEq] at h'
      exact le_of_eq h'.2.symm
    · intro t l n p hget
      simp at hget
  | cons s rest ih =>
    intro i acc j k h
    simp only [pickMinAux] at h
    cases hs : s.head? with
    | none =>
      rw [hs] at h
      obtain ⟨haccle, hrest⟩ := ih _ _ _ _ h
      refine ⟨haccle, ?_⟩
      intro t l n p hget hhead
      cases t with
      | zero =>
        simp at hget
        rw [hget] at hs
        rw [hs] at hhead
        exact absurd hhead (by simp)
      | succ t' => exact hrest t' l n p (by simpa using hget) hhead
    | some q =>
      rw [hs] at h
      obtain ⟨n0, k0⟩ := q
      cases acc with
      | none =>
        obtain ⟨haccle, hrest⟩ := ih _ _ _ _ h
        have hk0 : k ≤ k0 := haccle i k0 rfl
        refine ⟨by intro j' k' ha; exact absurd ha (by simp), ?_⟩
        intro t l n p hget hhead
        cases t with
        | zero =>
          simp at hget
          rw [hget] at hs
          rw [hs] at hhead
          injection hhead with hh
          rw [Prod.mk.injEq] at hh
          rw [← hh.2]
          exact hk0
        | succ t' => exact hrest t' l n p (by simpa using hget) hhead
      | some a =>
        obtain ⟨j0, bk⟩ := a
        dsimp at h
        by_cases hcmp : k0 < bk
        · rw [if_pos hcmp] at h
          obtain ⟨haccle, hrest⟩ := ih _ _ _ _ h
          have hk0 : k ≤ k0 := haccle i k0 rfl
          refine ⟨?_, ?_⟩
          · intro j' k' ha
            injection ha with ha'
            rw [Prod.mk.injEq] at ha'
            rw [← ha'.2]
            exact le_trans hk0 (le_of_lt hcmp)
          · intro t l n p hget hhead
            cases t with
            | zero =>
              simp at hget
              rw [hget] at hs
              rw [hs] at hhead
              injection hhead with hh
              rw [Prod.mk.injEq] at hh
              rw [← hh.2]
              exact hk0
            | succ t' => exact hrest t' l n p (by simpa using hget) hhead
        · rw [if_neg hcmp] at h
          obtain ⟨haccle, hrest⟩ := ih _ _ _ _ h
          have hbk : k ≤ bk := haccle j0 bk rfl
          refine ⟨?_, ?_⟩
          · intro j' k' ha
            injection ha with ha'
            rw [Prod.mk.injEq] at ha'
            rw [← ha'.2]
            exact hbk
          · intro t l n p hget hhead
            cases t with
            | zero =>
              simp at hget
              rw [hget] at hs
              rw [hs] at hhead
              injection hhead with hh
              rw [Prod.mk.injEq] at hh
              rw [← hh.2]
              exact le_trans hbk (not_lt.mp hcmp)
            | succ t' => exact hrest t' l n p (by simpa using hget) hhead

/-- If no stream can be selected, every stream is empty. -/
theorem pickMin_none {α : Type} [LinearOrder α] {ss : List (List (Nat × α))}
    (h : pickMin ss = none) : ∀ s ∈ ss, s = [] :=
  (pickMinAux_none ss 0 none h).2

/-- The selected index points at a stream whose head carries the selected
key. -/
theorem pickMin_sound {α : Type} [LinearOrder α] {ss : List (List (Nat × α))} {j : Nat} {k : α}
    (h : pickMin ss = some (j, k)) :
    ∃ (l : List (Nat × α)) (n : Nat), ss[j]? = some l ∧ l.head? = some (n, k) := by
  rcases pickMinAux_sound ss 0 none j k h with ha | ⟨t, l, n, hget, hhead, hj⟩
  · exact absurd ha (by simp)
  · exact ⟨l, n, by rwa [show j = t by omega], hhead⟩

/-- The selected key is minimal among all stream heads. -/
theorem pickMin_min {α : Type} [LinearOrder α] {ss : List (List (Nat × α))} {j : Nat} {k : α}
    (h : pickMin ss = some (j, k)) :
    ∀ (t : Nat) (l : List (Nat × α)) (n : Nat) (p : α),
      ss[t]? = some l → l.head? = some (n, p) → k ≤ p :=
  (pickMinAux_min ss 0 none j k h).2

/-- Removing the head of one stream shrinks the pending-element count by
one. -/
theorem totalLen_set {α : Type} :
    ∀ (ss : List (List α)) (i : Nat) (p : α) (tl : List α),
    ss[i]? = some (p :: tl) → totalLen (ss.set i tl) + 1 = totalLen ss := by
  intro ss
  induction ss with
  | nil => intro i p tl h; simp at h
  | cons s rest ih =>
    intro i p tl h
    cases i with
    | zero =>
      simp at h
      simp [totalLen, h]
      omega
    | succ i' =>
      simp at h
      have := ih i' p tl h
      simp [totalLen] at this ⊢
      omega

/-- Removing the head of one stream removes exactly that element from the
concatenation, up to permutation. -/
theorem flatten_set_perm {α : Type} :
    ∀ (ss : List (List α)) (i : Nat) (p : α) (tl : List α),
    ss[i]? = some (p :: tl) → ss.flatten.Perm (p :: (ss.set i tl).flatten) := by
  intro ss
  induction ss with
  | nil => intro i p tl h; simp at h
  | cons s rest ih =>
    intro i p tl h
    cases i with
    | zero =>
      simp at h
      simp [h]
    | succ i' =>
      simp at h
      have hperm := ih i' p tl h
      have h1 : (s ++ rest.flatten).Perm (s ++ (p :: (rest.set i' tl).flatten)) :=
        hperm.append_left s
      have h2 : (s ++ (p :: (rest.set i' tl).flatten)).Perm
          (p :: (s ++ (rest.set i' tl).flatten)) := List.perm_middle
      simpa using h1.trans h2

/-- With no pending elements, the concatenation of the streams is empty. -/
theorem flatten_eq_nil_of_totalLen {α : Type} {ss : List (List α)}
    (h : totalLen ss = 0) : ss.flatten = [] := by
  simp [totalLen] at h
  have hz := List.sum_eq_zero_iff.mp h
  simp [List.flatten_eq_nil_iff]
  intro l hl
  exact List.length_eq_zero.mp (hz _ (List.mem_map_of_mem List.length hl))

/-- The k-way merge emits a permutation of the streams' concatenation, as
long as the fuel covers the pending-element count. -/
theorem kmergeFuel_perm {α : Type} [LinearOrder α] :
    ∀ (fuel : Nat) (ss : List (List (Nat × α))), totalLen ss ≤ fuel →
    (kmergeFuel fuel ss).Perm ss.flatten := by
  intro fuel
  induction fuel with
  | zero =>
    intro ss h
    rw [kmergeFuel, flatten_eq_nil_of_totalLen (Nat.le_zero.mp h)]
  | succ n ih =>
    intro ss h
    cases hp : pickMin ss with
    | none =>
      have hall := pickMin_none hp
      have : ss.flatten = [] := by
        simp [List.flatten_eq_nil_iff]
        exact hall
      rw [kmergeFuel, hp, this]
    | some jk =>
      obtain ⟨i, k⟩ := jk
      obtain ⟨l, m, hget, hhead⟩ := pickMin_sound hp
      cases l with
      | nil => simp at hhead
      | cons p tl =>
        have hgetD : ss.getD i [] = p :: tl := by
          simp [List.getD_eq_getElem?_getD, hget]
        rw [kmergeFuel, hp]
        simp only [hgetD]
        have hlen : totalLen (ss.set i tl) ≤ n := by
          have := totalLen_set ss i p tl hget
          omega
        have hrec := ih (ss.set i tl) hlen
        exact (hrec.cons p).trans (flatten_set_perm ss i p tl hget).symm

/-- The k-way merge of streams that are each sorted by key emits its pairs
in non-decreasing key order. -/
theorem kmergeFuel_sorted {α : Type} [LinearOrder α] :
    ∀ (fuel : Nat) (ss : List (List (Nat × α))), totalLen ss ≤ fuel →
    (∀ s ∈ ss, s.Pairwise (fun a b => a.2 < b.2)) →
    (kmergeFuel fuel ss).Pairwise (fun a b => a.2 ≤ b.2) := by
  intro fuel
  induction fuel with
  | zero => intro ss _ _; rw [kmergeFuel]; exact List.Pairwise.nil
  | succ n ih =>
    intro ss h hsorted
    cases hp : pickMin ss with
    | none => rw [kmergeFuel, hp]; exact List.Pairwise.nil
    | some jk =>
      obtain ⟨i, k⟩ := jk
      obtain ⟨l, m, hget, hhead⟩ := pickMin_sound hp
      cases l with
      | nil => simp at hhead
      | cons p tl =>
        have hpk : p = (m, k) := by simpa using hhead
        have hgetD : ss.getD i [] = p :: tl := by
          simp [List.getD_eq_getElem?_getD, hget]
        rw [kmergeFuel, hp]
        simp only [hgetD]
        have hlen : totalLen (ss.set i tl) ≤ n := by
          have := totalLen_set ss i p tl hget
          omega
        have hsetSorted : ∀ s' ∈ ss.set i tl, s'.Pairwise (fun a b => a.2 < b.2) := by
          intro s' hs'
          rcases List.mem_or_eq_of_mem_set hs' with hss | htl
          · exact hsorted s' hss
          · rw [htl]
            exact (hsorted (p :: tl) (List.getElem?_mem hget)).of_cons
        refine List.pairwise_cons.mpr ⟨?_, ih (ss.set i tl) hlen hsetSorted⟩
        intro q hq
        have hqf : q ∈ (ss.set i tl).flatten :=
          (kmergeFuel_perm n (ss.set i tl) hlen).mem_iff.mp hq
        obtain ⟨s', hs', hqs'⟩ := List.mem_flatten.mp hqf
        rcases List.mem_or_eq_of_mem_set hs' with hss | htl
        · obtain ⟨u, hu⟩ := List.getElem?_of_mem hss
          cases s' with
          | nil => simp at hqs'
          | cons hd tl2 =>
            have hkhd : k ≤ hd.2 :=
              pickMin_min hp u (hd :: tl2) hd.1 hd.2 hu (by simp)
            rcases List.mem_cons.mp hqs' with hqhd | hqtl
            · rw [hqhd, hpk]
              exact hkhd
            · have := (List.pairwise_cons.mp (hsorted (hd :: tl2) hss)).1 q hqtl
              rw [hpk]
              exact le_trans hkhd (le_of_lt this)
        · rw [htl] at hqs'
          have := (List.pairwise_cons.mp (hsorted (p :: tl) (List.getElem?_mem hget))).1 q hqs'
          exact le_of_lt this

/-- The string components of an offset-enumerated stream are the input
strings. -/
theorem enumFrom_map_snd {α : Type} : ∀ (l : List α) (n : Nat),
    (enumFrom n l).map Prod.snd = l := by
  intro l
  induction l with
  | nil => intro n; rfl
  | cons a rest ih => intro n; simp [enumFrom, ih]

/-- The identifier components of an offset-enumerated stream are the
consecutive integers from the offset. -/
theorem enumFrom_map_fst {α : Type} : ∀ (l : List α) (n : Nat),
    (enumFrom n l).map Prod.fst = List.range' n l.length := by
  intro l
  induction l with
  | nil => intro n; rfl
  | cons a rest ih => intro n; simp [enumFrom, ih, List.range'_succ]

/-- Positional reads of an offset-enumerated stream. -/
theorem enumFrom_getElem? {α : Type} : ∀ (l : List α) (n t : Nat),
    (enumFrom n l)[t]? = (l[t]?).map (fun a => (n + t, a)) := by
  intro l
  induction l with
  | nil => intro n t; simp [enumFrom]
  | cons a rest ih =>
    intro n t
    cases t with
    | zero => simp [enumFrom]
    | succ t' =>
      simp only [enumFrom, List.getElem?_cons_succ]
      rw [ih (n + 1) t']
      cases rest[t']? <;> (simp; try omega)

/-- Sortedness of an input dictionary carries over to its offset-enumerated
stream, on the string components. -/
theorem enumFrom_pairwise {α : Type} [LinearOrder α] : ∀ (l : List α) (n : Nat),
    l.Pairwise (· < ·) → (enumFrom n l).Pairwise (fun a b => a.2 < b.2) := by
  intro l
  induction l with
  | nil => intro n _; exact List.Pairwise.nil
  | cons a rest ih =>
    intro n hp
    obtain ⟨ha, hrest⟩ := List.pairwise_cons.mp hp
    refine List.pairwise_cons.mpr ⟨?_, ih (n + 1) hrest⟩
    intro q hq
    have : q.2 ∈ (enumFrom (n + 1) rest).map Prod.snd := List.mem_map_of_mem Prod.snd hq
    rw [enumFrom_map_snd] at this
    exact ha q.2 this

/-- The stream built for input `i` is its dictionary enumerated from the
exclusive prefix sum of the earlier counts (`n` is the running tally the
scan starts from). -/
theorem streamsOfAux_getElem? : ∀ (inputs : List (List String)) (n i : Nat) (l : List String),
    inputs[i]? = some l →
    (List.zipWith enumFrom (offsetsFrom n inputs) inputs)[i]? =
      some (enumFrom (n + offsetOf inputs i) l) := by
  intro inputs
  induction inputs with
  | nil => intro n i l h; simp at h
  | cons l0 rest ih =>
    intro n i l h
    cases i with
    | zero =>
      simp at h
      simp [offsetsFrom, offsetOf, h]
    | succ i' =>
      simp at h
      have := ih (n + l0.length) i' l h
      simp [offsetsFrom, this]
      have hoff : offsetOf (l0 :: rest) (i' + 1) = l0.length + offsetOf rest i' := by
        simp [offsetOf]
      rw [hoff]
      ring_nf

/-- The identifier components over all streams, concatenated, are exactly
the consecutive integers covering the total count. -/
theorem streams_fst_flatten : ∀ (inputs : List (List String)) (n : Nat),
    ((List.zipWith enumFrom (offsetsFrom n inputs) inputs).flatten).map Prod.fst =
      List.range' n (totalLen inputs) := by
  intro inputs
  induction inputs with
  | nil => intro n; simp [offsetsFrom, totalLen]
  | cons l0 rest ih =>
    intro n
    simp only [offsetsFrom, List.zipWith_cons_cons, List.flatten_cons, List.map_append,
      enumFrom_map_fst, ih (n + l0.length)]
    have htot : totalLen (l0 :: rest) = totalLen rest + l0.length := by
      simp [totalLen]
      omega
    rw [htot, ← List.range'_append_1]

/-- The string components over all streams, concatenated, are the inputs'
concatenation. -/
theorem streams_snd_flatten : ∀ (inputs : List (List String)) (n : Nat),
    ((List.zipWith enumFrom (offsetsFrom n inputs) inputs).flatten).map Prod.snd =
      inputs.flatten := by
  intro inputs
  induction inputs with
  | nil => intro n; simp [offsetsFrom]
  | cons l0 rest ih =>
    intro n
    simp only [offsetsFrom, List.zipWith_cons_cons, List.flatten_cons, List.map_append,
      enumFrom_map_snd, ih (n + l0.length), List.flatten_cons]

/-- Every stream of the merge input is the offset enumeration of one of the
input dictionaries. -/
theorem mem_streamsOf {inputs : List (List String)} {s : List (Nat × String)}
    (h : s ∈ streamsOf inputs) :
    ∃ (i : Nat) (l : List String), inputs[i]? = some l ∧ s = enumFrom (offsetOf inputs i) l := by
  obtain ⟨i, hi⟩ := List.getElem?_of_mem h
  unfold streamsOf at hi
  have hlen : i < inputs.length := by
    have hl := (List.getElem?_eq_some.mp hi).1
    simp at hl
    omega
  obtain ⟨l, hl⟩ : ∃ l, inputs[i]? = some l :=
    ⟨inputs[i], List.getElem?_eq_getElem hlen⟩
  have := streamsOfAux_getElem? inputs 0 i l hl
  rw [this] at hi
  injection hi with hi'
  exact ⟨i, l, hl, by rw [← hi']; simp⟩

/-- C6: for input dictionaries with pairwise disjoint string sets and no
remaps, merge_dictionary_stack produces a dictionary that enumerates exactly
the sorted union of the input strings (a permutation of their concatenation,
in strictly increasing order), and the mapped dictionary built from its two
file sets maps every string that sat at local position t of input i to
external identifier offset_i + t and back, where offset_i is the exclusive
prefix sum of the input counts. -/
theorem c6_merge_dictionary_stack_correct (inputs : List (List String))
    (hsorted : ∀ l ∈ inputs, l.Pairwise (· < ·))
    (hdisj : inputs.Pairwise List.Disjoint) :
    ((mergeDictionaryStack inputs).1.Perm inputs.flatten ∧
      (mergeDictionaryStack inputs).1.Pairwise (· < ·)) ∧
    (∀ (i : Nat) (l : List String), inputs[i]? = some l →
      ∀ (t : Nat) (s : String), l[t]? = some s →
        (mergedMappedDict inputs).id s = some (offsetOf inputs i + t) ∧
        (mergedMappedDict inputs).get (offsetOf inputs i + t) = some s) := by
  have hdict_eq : (mergeDictionaryStack inputs).1 = (kmerge (streamsOf inputs)).map Prod.snd :=
    rfl
  have hwtree_eq : (mergeDictionaryStack inputs).2 = (kmerge (streamsOf inputs)).map Prod.fst :=
    rfl
  have hperm : (kmerge (streamsOf inputs)).Perm (streamsOf inputs).flatten := by
    unfold kmerge
    exact kmergeFuel_perm _ _ (le_refl _)
  have hsndflat : ((streamsOf inputs).flatten).map Prod.snd = inputs.flatten :=
    streams_snd_flatten inputs 0
  have hfstflat : ((streamsOf inputs).flatten).map Prod.fst = List.range' 0 (totalLen inputs) :=
    streams_fst_flatten inputs 0
  have hdictPerm : ((mergeDictionaryStack inputs).1).Perm inputs.flatten := by
    rw [hdict_eq, ← hsndflat]
    exact hperm.map Prod.snd
  have hwtreePerm : ((mergeDictionaryStack inputs).2).Perm (List.range' 0 (totalLen inputs)) := by
    rw [hwtree_eq, ← hfstflat]
    exact hperm.map Prod.fst
  have hstreamsSorted : ∀ s ∈ streamsOf inputs, s.Pairwise (fun a b => a.2 < b.2) := by
    intro s hs
    obtain ⟨i, l, hil, rfl⟩ := mem_streamsOf hs
    exact enumFrom_pairwise l _ (hsorted l (List.getElem?_mem hil))
  have hmergedLe : (kmerge (streamsOf inputs)).Pairwise (fun a b => a.2 ≤ b.2) := by
    unfold kmerge
    exact kmergeFuel_sorted _ _ (le_refl _) hstreamsSorted
  have hflatNodup : inputs.flatten.Nodup :=
    List.nodup_flatten.mpr ⟨fun l hl => (hsorted l hl).imp ne_of_lt, hdisj⟩
  have hdictNodup : ((mergeDictionaryStack inputs).1).Nodup :=
    hdictPerm.nodup_iff.mpr hflatNodup
  have hwtreeNodup : ((mergeDictionaryStack inputs).2).Nodup :=
    hwtreePerm.nodup_iff.mpr (List.nodup_range' 0 (totalLen inputs) 1 (by norm_num))
  have hdictLe : ((mergeDictionaryStack inputs).1).Pairwise (· ≤ ·) := by
    rw [hdict_eq]
    exact List.pairwise_map.mpr hmergedLe
  have hdictLt : ((mergeDictionaryStack inputs).1).Pairwise (· < ·) :=
    (hdictLe.and hdictNodup).imp fun hab => lt_of_le_of_ne hab.1 hab.2
  refine ⟨⟨hdictPerm, hdictLt⟩, ?_⟩
  intro i l hil t s hts
  have he : (enumFrom (offsetOf inputs i) l)[t]? = some (offsetOf inputs i + t, s) := by
    rw [enumFrom_getElem?, hts]
    rfl
  have hstreamMem : enumFrom (offsetOf inputs i) l ∈ streamsOf inputs := by
    have := streamsOfAux_getElem? inputs 0 i l hil
    simp only [Nat.zero_add] at this
    exact List.getElem?_mem this
  have hmemFlat : (offsetOf inputs i + t, s) ∈ (streamsOf inputs).flatten :=
    List.mem_flatten.mpr ⟨_, hstreamMem, List.getElem?_mem he⟩
  have hmemMerged : (offsetOf inputs i + t, s) ∈ kmerge (streamsOf inputs) :=
    hperm.mem_iff.mpr hmemFlat
  obtain ⟨u, hu⟩ := List.getElem?_of_mem hmemMerged
  have hdictu : ((mergeDictionaryStack inputs).1)[u]? = some s := by
    rw [hdict_eq, List.getElem?_map, hu]
    rfl
  have hwtreeu : ((mergeDictionaryStack inputs).2)[u]? = some (offsetOf inputs i + t) := by
    rw [hwtree_eq, List.getElem?_map, hu]
    rfl
  constructor
  · show ((idxOf? s (mergeDictionaryStack inputs).1).map
      (fun mappedId => ((mergeDictionaryStack inputs).2).getD mappedId 0)) = _
    rw [idxOf?_of_getElem? hdictNodup hdictu]
    simp [List.getD_eq_getElem?_getD, hwtreeu]
  · show ((idxOf? (offsetOf inputs i + t) (mergeDictionaryStack inputs).2).bind
      (fun mappedId => ((mergeDictionaryStack inputs).1).get? mappedId)) = _
    rw [idxOf?_of_getElem? hwtreeNodup hwtreeu]
    simp [List.get?_eq_getElem?, hdictu]

/-- Witness for C6 at a concrete stack: the singleton dictionaries a and b
are each sorted and pairwise disjoint, and the merger's conclusions hold for
them by the theorem. -/
theorem c6_merge_dictionary_stack_witness :
    ((∀ l ∈ ([["a"], ["b"]] : List (List String)), l.Pairwise (· < ·)) ∧
      ([["a"], ["b"]] : List (List String)).Pairwise List.Disjoint) ∧
    (((mergeDictionaryStack [["a"], ["b"]]).1.Perm
        ([["a"], ["b"]] : List (List String)).flatten ∧
      (mergeDictionaryStack [["a"], ["b"]]).1.Pairwise (· < ·)) ∧
     (∀ (i : Nat) (l : List String), ([["a"], ["b"]] : List (List String))[i]? = some l →
       ∀ (t : Nat) (s : String), l[t]? = some s →
         (mergedMappedDict [["a"], ["b"]]).id s = some (offsetOf [["a"], ["b"]] i + t) ∧
         (mergedMappedDict [["a"], ["b"]]).get (offsetOf [["a"], ["b"]] i + t) = some s)) := by
  have h1 : ∀ l ∈ ([["a"], ["b"]] : List (List String)), l.Pairwise (· < ·) := by
    intro l hl
    simp at hl
    rcases hl with rfl | rfl <;> simp
  have h2 : ([["a"], ["b"]] : List (List String)).Pairwise List.Disjoint := by
    refine List.Pairwise.cons ?_ (List.Pairwise.cons (by simp) List.Pairwise.nil)
    intro l' hl'
    simp at hl'
    subst hl'
    intro x hx hy
    simp at hx hy
    subst hx
    exact absurd hy (by decide)
  exact ⟨⟨h1, h2⟩, c6_merge_dictionary_stack_correct [["a"], ["b"]] h1 h2⟩
